import Mathlib

/-!
Shallow embedding of the cw4-stake migration contract
(src/contracts/cw4-stake/src/contract.rs and src/contracts/cw4-stake/src/msg.rs).

Machine integers are modelled as Nat with explicit reductions modulo 2^64 where the
source truncates (the `as u64` cast in calc_weight) and with explicit bounds checks
where the source performs checked arithmetic (Uint128 / u64 operations abort on
overflow or underflow, and the surrounding execution environment reverts all state
on abort, so a failing call is modelled as an `Except.error` carrying no state).

Storage maps (the MEMBERS snapshot map, the CLAIMS store, the STAKE ledger) are
modelled as association lists ordered ascending by address, matching the ascending
`range` iteration the contract uses.  Snapshot-map writes additionally append an
entry to a change log so that "no snapshot write happened" is observable.
-/

namespace Cw4Stake

/-- One past the largest u64 value; the modulus applied by the `as u64` cast. -/
def U64_MOD : Nat := 2 ^ 64

/-- cw20::Denom.  Only the native variant is supported; the CW20 variant makes the
contract abort (the `unreachable` branches in contract.rs). -/
inductive Denom where
  | native (denom : String)
  | cw20 (addr : String)
deriving DecidableEq

/-- Config from state.rs as used by contract.rs (the unbonding period plays no role
in any of the analysed operations and is omitted). -/
structure Config where
  denom : Denom
  tokens_per_weight : Nat
  min_bond : Nat
deriving DecidableEq

/-- calc_weight from contract.rs lines 154-161: below min_bond there is no
membership; otherwise the weight is the truncating division of the stake by
tokens_per_weight, cast to u64 (`w as u64`), i.e. reduced modulo 2^64. -/
def calc_weight (stake : Nat) (cfg : Config) : Option Nat :=
  if stake < cfg.min_bond then none
  else some ((stake / cfg.tokens_per_weight) % U64_MOD)

/-- One pending unbonding claim: an amount and the time/height marker at which it
matures (cw_controllers::Claim with Expiration flattened to a Nat marker). -/
structure Claim where
  amount : Nat
  release_at : Nat
deriving DecidableEq

/-- The MEMBERS map: address to weight, ascending by address. -/
abbrev WMap := List (String × Nat)

/-- The CLAIMS store: address to list of pending claims, ascending by address. -/
abbrev CMap := List (String × List Claim)

/-- Point lookup (Map::may_load): the value stored under a key, if any. -/
def lookupKey {α : Type} : List (String × α) → String → Option α
  | [], _ => none
  | p :: rest, k => if p.1 = k then some p.2 else lookupKey rest k

/-- Map::remove: drop the entry stored under a key. -/
def removeKey {α : Type} : List (String × α) → String → List (String × α)
  | [], _ => []
  | p :: rest, k => if p.1 = k then removeKey rest k else p :: removeKey rest k

/-- Map::save: store a value under a key, keeping the list ordered by key. -/
def saveKey {α : Type} : List (String × α) → String → α → List (String × α)
  | [], k, v => [(k, v)]
  | (k', v') :: rest, k, v =>
    if k < k' then (k, v) :: (k', v') :: rest
    else if k = k' then (k, v) :: rest
    else (k', v') :: saveKey rest k v

/-- A member-changed hook notification (cw4::MemberDiff sent to one hook). -/
structure SubMsg where
  hook : String
  diff_key : String
  diff_old : Option Nat
  diff_new : Option Nat
deriving DecidableEq

/-- The contract's persistent state: CONFIG, TOTAL (a u64 counter), the MEMBERS
snapshot map, the STAKE ledger, the CLAIMS store, the registered HOOKS, the
DAO_DAO successor address, and the snapshot change log (address, height, new
value; `none` records a removal). -/
structure State where
  config : Config
  total : Nat
  members : WMap
  stake : List (String × Nat)
  claims : CMap
  hooks : List String
  dao_dao : String
  log : List (String × Nat × Option Nat)
deriving DecidableEq

/-- The error/abort outcomes of the analysed entry points.  `overflow` stands for
any checked-arithmetic abort (Uint128 or u64 underflow/overflow). -/
inductive ContractError where
  | nothingToClaim
  | overflow
  | unreachableCw20
deriving DecidableEq

/-- update_membership from contract.rs lines 119-152.  Recomputes the weight,
short-circuits when it is unchanged, otherwise saves/removes the snapshot entry
at the given height, updates TOTAL by `total + new - old` with checked u64
arithmetic (overflow or underflow aborts the whole call), and emits one
MemberDiff notification per registered hook. -/
def update_membership (st : State) (sender : String) (new_stake : Nat)
    (height : Nat) : Except ContractError (State × List SubMsg) :=
  if calc_weight new_stake st.config = lookupKey st.members sender then
    .ok (st, [])
  else if U64_MOD ≤ st.total + (calc_weight new_stake st.config).getD 0 ∨
      st.total + (calc_weight new_stake st.config).getD 0
        < (lookupKey st.members sender).getD 0 then
    .error .overflow
  else
    .ok ({ st with
           members :=
             match calc_weight new_stake st.config with
             | some w => saveKey st.members sender w
             | none => removeKey st.members sender,
           total := st.total + (calc_weight new_stake st.config).getD 0
             - (lookupKey st.members sender).getD 0,
           log := (sender, height, calc_weight new_stake st.config) :: st.log },
         st.hooks.map fun h =>
           ⟨h, sender, lookupKey st.members sender,
            calc_weight new_stake st.config⟩)

/-- The batch accumulator loop of MigrateToDaoDao (contract.rs lines 77-81):
starting from `sum`, performs `sum -= weight` for each selected member with
Uint128 checked subtraction, aborting on underflow. -/
def subWeights : Nat → List (String × Nat) → Except ContractError Nat
  | sum, [] => .ok sum
  | sum, (_, w) :: rest =>
    if sum < w then .error .overflow else subWeights (sum - w) rest

/-- Removing a batch of addresses from a map, in order. -/
def removeAll (m : WMap) (ks : List String) : WMap := ks.foldl removeKey m

/-- The single outbound message built by MigrateToDaoDao: a wasm-execute to the
DAO_DAO successor carrying the MigrateStakes payload (a list of weights only)
together with native funds, plus the response attribute. -/
structure MigrateResult where
  recipient : String
  weights : List (String × Nat)
  fund_amount : Nat
  fund_denom : String
  action : String
deriving DecidableEq

/-- ExecuteMsg::MigrateToDaoDao from contract.rs lines 69-98.  Takes the first
`num` entries of MEMBERS in ascending address order, removes them (recording the
removal in the snapshot log at the current height), folds `sum -= weight` over
them starting from zero with checked subtraction, stores `TOTAL - sum` (checked
Uint128 subtraction, then a checked u64 conversion), and sends a single
MigrateStakes message with `sum` native tokens attached.  The STAKE ledger and
the CLAIMS store are not touched. -/
def migrateToDaoDao (st : State) (height num : Nat) :
    Except ContractError (State × MigrateResult) :=
  match subWeights 0 (st.members.take num) with
  | .error e => .error e
  | .ok sum =>
    if st.total < sum then .error .overflow
    else if U64_MOD ≤ st.total - sum then .error .overflow
    else
      match st.config.denom with
      | .cw20 _ => .error .unreachableCw20
      | .native d =>
        .ok ({ st with
               members := removeAll st.members ((st.members.take num).map (·.1)),
               total := st.total - sum,
               log := ((st.members.take num).map
                 fun p => (p.1, height, (none : Option Nat))) ++ st.log },
             { recipient := st.dao_dao, weights := st.members.take num,
               fund_amount := sum, fund_denom := d, action := "migrate" })

/-- Total amount of a list of claims. -/
def sumAmounts (cs : List Claim) : Nat := (cs.map (·.amount)).sum

/-- The matured claims of a sender: those whose maturity marker has elapsed. -/
def maturedOf (claims : CMap) (sender : String) (now : Nat) : List Claim :=
  ((lookupKey claims sender).getD []).filter fun c => decide (c.release_at ≤ now)

/-- The still-pending claims of a sender: those not yet matured. -/
def pendingOf (claims : CMap) (sender : String) (now : Nat) : List Claim :=
  ((lookupKey claims sender).getD []).filter fun c => !decide (c.release_at ≤ now)

/-- Modelled from the spec: cw_controllers::Claims::claim_tokens, whose source is
not part of this repository (the contract only calls it).  Per spec section 4.3
step 1 and section 9, it releases all claim entries of the sender whose maturity
marker has elapsed as of the current time, removes them (saving back the
remaining pending list), and returns the sum of the released amounts. -/
def claim_tokens (claims : CMap) (sender : String) (now : Nat) : Nat × CMap :=
  (sumAmounts (maturedOf claims sender now),
   saveKey claims sender (pendingOf claims sender now))

/-- The payout built by execute_claim: recipient (always the sender; a callback
only changes the message wrapping), released amount, denomination, and the
optional callback data. -/
structure ClaimResult where
  recipient : String
  amount : Nat
  denom : String
  callback : Option String
deriving DecidableEq

/-- execute_claim from contract.rs lines 163-198: release the matured claims of
the sender; fail with NothingToClaim when the released amount is zero (no state
mutated); only the native denomination is supported; otherwise pay out the
released amount to the sender (plainly or wrapped in the given callback). -/
def execute_claim (st : State) (sender : String) (now : Nat)
    (callback : Option String) : Except ContractError (State × ClaimResult) :=
  if (claim_tokens st.claims sender now).1 = 0 then .error .nothingToClaim
  else
    match st.config.denom with
    | .cw20 _ => .error .unreachableCw20
    | .native d =>
      .ok ({ st with claims := (claim_tokens st.claims sender now).2 },
           { recipient := sender, amount := (claim_tokens st.claims sender now).1,
             denom := d, callback := callback })

/-- Sum of the weights recorded in a member map. -/
def sumW (m : WMap) : Nat := (m.map (·.2)).sum

/-- A storage map is ordered strictly ascending by key. -/
abbrev sortedKeys {α : Type} (m : List (String × α)) : Prop :=
  m.Pairwise fun p q => p.1 < q.1

/-- The contract's state invariant for the membership ledger: the map is ordered
by address and the TOTAL counter equals the sum of all recorded weights. -/
abbrev Inv (st : State) : Prop :=
  sortedKeys st.members ∧ st.total = sumW st.members

/-- The state-mutating calls that touch the membership ledger. -/
inductive Op where
  | update (sender : String) (new_stake : Nat) (height : Nat)
  | migrate (height : Nat) (num : Nat)

/-- Transactional execution of one call: an aborting call leaves the state
unchanged (the execution environment reverts it). -/
def applyOp (st : State) (op : Op) : State :=
  match op with
  | .update s n h =>
    match update_membership st s n h with
    | .ok (st', _) => st'
    | .error _ => st
  | .migrate h n =>
    match migrateToDaoDao st h n with
    | .ok (st', _) => st'
    | .error _ => st

/-- Execution of a sequence of calls. -/
def applyOps (st : State) (ops : List Op) : State := ops.foldl applyOp st

/-- A well-formed starting state used by the concrete witnesses below. -/
def baseState : State :=
  { config := ⟨.native "ukuji", 100, 100⟩, total := 0, members := [],
    stake := [], claims := [], hooks := [], dao_dao := "successor", log := [] }

/-- A state with one member of weight 1, a stake entry and a pending claim. -/
def stMember1 : State :=
  { baseState with
    total := 1, members := [("alice", 1)],
    stake := [("alice", 100)], claims := [("bob", [⟨5, 0⟩])] }

/-- A state whose only member has weight 0 while a claim is pending. -/
def stZeroWeight : State :=
  { baseState with members := [("alice", 0)], claims := [("bob", [⟨40, 0⟩])] }

/-- A state whose TOTAL (5) strictly exceeds the only member's weight (1). -/
def stBigTotal : State :=
  { baseState with total := 5, members := [("anna", 1)] }

/-- A state with one matured (50 at time 10) and one pending (30 at time 1000)
claim for address C, the concrete scenario of the spec. -/
def stTwoClaims : State :=
  { baseState with claims := [("C", [⟨50, 10⟩, ⟨30, 1000⟩])] }

/-- The state reached from baseState by staking 250 for alice. -/
def stAfterStake : State :=
  { baseState with
    total := 2, members := [("alice", 2)],
    log := [("alice", 5, some 2)] }

/-- A state with a recorded weight (3) larger than TOTAL (0). -/
def stLowTotal : State :=
  { baseState with members := [("anna", 3)] }

end Cw4Stake

namespace Cw4Stake

/-- C6 counterexample: with tokens_per_weight = 1 and min_bond = 1, a stake of
2^64 has floor(stake / tokens_per_weight) = 2^64, but calc_weight returns
some 0 because the quotient is cast to u64; so calc_weight does not always
return the untruncated quotient. -/
theorem calc_weight_truncation_counterexample :
    calc_weight (2 ^ 64) ⟨.native "ukuji", 1, 1⟩ = some 0 ∧
      (2 ^ 64 : Nat) / 1 = 2 ^ 64 ∧ (0 : Nat) ≠ 2 ^ 64 := by
  refine ⟨?_, by norm_num, by norm_num⟩
  show calc_weight (2 ^ 64) ⟨.native "ukuji", 1, 1⟩ = some 0
  rw [calc_weight]
  norm_num [U64_MOD]

/-- C6 (amended): for a positive tokens_per_weight divisor, calc_weight returns
none exactly when the stake is below min_bond, and otherwise returns the
truncating quotient of the stake by tokens_per_weight reduced modulo 2^64
(the u64 cast); it is a pure total function. -/
theorem calc_weight_spec (cfg : Config) (s : Nat)
    (hw : 0 < cfg.tokens_per_weight) :
    (calc_weight s cfg = none ↔ s < cfg.min_bond) ∧
      (cfg.min_bond ≤ s →
        calc_weight s cfg = some ((s / cfg.tokens_per_weight) % U64_MOD)) := by
  constructor
  · rw [calc_weight]
    split
    · simp_all
    · simp_all
  · intro h
    rw [calc_weight, if_neg (by omega)]

/-- C6 witness: the spec's own concrete scenario, a 250 stake with
tokens_per_weight = 100 and min_bond = 100 has weight 2. -/
theorem calc_weight_spec_witness :
    calc_weight 250 ⟨.native "ukuji", 100, 100⟩
      = some ((250 / 100) % U64_MOD) :=
  (calc_weight_spec ⟨.native "ukuji", 100, 100⟩ 250 (by decide)).2 (by decide)

/-- C7 counterexample: with tokens_per_weight = 1 and min_bond = 1, the stake
2^64 - 1 has weight 2^64 - 1 but the larger stake 2^64 has weight 0 (u64
truncation), so calc_weight is not monotonic over all stake amounts. -/
theorem calc_weight_mono_counterexample :
    (2 ^ 64 - 1 : Nat) ≤ 2 ^ 64 ∧
      ¬ ((calc_weight (2 ^ 64 - 1) ⟨.native "ukuji", 1, 1⟩).getD 0 ≤
          (calc_weight (2 ^ 64) ⟨.native "ukuji", 1, 1⟩).getD 0) := by
  constructor
  · omega
  · rw [calc_weight, calc_weight]
    norm_num [U64_MOD]

/-- C7 (amended): calc_weight is monotonic non-decreasing in the stake (absent
counting as weight zero) as long as the larger stake's quotient stays below
2^64, i.e. away from the u64 truncation boundary. -/
theorem calc_weight_mono_truncation_free (cfg : Config) (s1 s2 : Nat)
    (hw : 0 < cfg.tokens_per_weight) (h12 : s1 ≤ s2)
    (hq : s2 / cfg.tokens_per_weight < U64_MOD) :
    (calc_weight s1 cfg).getD 0 ≤ (calc_weight s2 cfg).getD 0 := by
  rw [calc_weight, calc_weight]
  split
  · simp
  · rw [if_neg (by omega)]
    simp only [Option.getD_some]
    have hdiv : s1 / cfg.tokens_per_weight ≤ s2 / cfg.tokens_per_weight :=
      Nat.div_le_div_right h12
    rw [Nat.mod_eq_of_lt hq, Nat.mod_eq_of_lt (lt_of_le_of_lt hdiv hq)]
    exact hdiv

/-- C7 witness: monotonicity at the spec's concrete stakes 150 and 250 under
tokens_per_weight = 100, min_bond = 100. -/
theorem calc_weight_mono_truncation_free_witness :
    (calc_weight 150 ⟨.native "ukuji", 100, 100⟩).getD 0 ≤
      (calc_weight 250 ⟨.native "ukuji", 100, 100⟩).getD 0 :=
  calc_weight_mono_truncation_free ⟨.native "ukuji", 100, 100⟩ 150 250
    (by decide) (by decide) (by decide)

end Cw4Stake

namespace Cw4Stake

theorem sumW_cons (p : String × Nat) (l : WMap) :
    sumW (p :: l) = p.2 + sumW l := by
  simp [sumW]

theorem lookupKey_eq_none_of_forall {α : Type} (m : List (String × α))
    (k : String) (h : ∀ q ∈ m, q.1 ≠ k) : lookupKey m k = none := by
  induction m with
  | nil => rfl
  | cons a l ih =>
    rw [lookupKey, if_neg (h a (List.mem_cons_self a l))]
    exact ih fun q hq => h q (List.mem_cons_of_mem a hq)

theorem lookupKey_saveKey_self {α : Type} (m : List (String × α)) (k : String)
    (v : α) : lookupKey (saveKey m k v) k = some v := by
  induction m with
  | nil => simp [saveKey, lookupKey]
  | cons a l ih =>
    obtain ⟨k', v'⟩ := a
    rw [saveKey]
    rcases lt_trichotomy k k' with h | h | h
    · rw [if_pos h, lookupKey, if_pos rfl]
    · rw [if_neg (by simp [h]), if_pos h, lookupKey, if_pos rfl]
    · rw [if_neg (not_lt.mpr h.le), if_neg (ne_of_gt h), lookupKey,
        if_neg (ne_of_lt h)]
      exact ih

theorem lookupKey_removeKey_self {α : Type} (m : List (String × α))
    (k : String) : lookupKey (removeKey m k) k = none := by
  induction m with
  | nil => rfl
  | cons a l ih =>
    rw [removeKey]
    by_cases h : a.1 = k
    · rw [if_pos h]; exact ih
    · rw [if_neg h, lookupKey, if_neg h]; exact ih

theorem removeKey_eq_self {α : Type} (m : List (String × α)) (k : String)
    (h : ∀ q ∈ m, q.1 ≠ k) : removeKey m k = m := by
  induction m with
  | nil => rfl
  | cons a l ih =>
    rw [removeKey, if_neg (h a (List.mem_cons_self a l)),
      ih fun q hq => h q (List.mem_cons_of_mem a hq)]

theorem removeKey_sublist {α : Type} (m : List (String × α)) (k : String) :
    List.Sublist (removeKey m k) m := by
  induction m with
  | nil => exact List.Sublist.refl _
  | cons a l ih =>
    rw [removeKey]
    by_cases h : a.1 = k
    · rw [if_pos h]; exact List.Sublist.cons a ih
    · rw [if_neg h]; exact List.Sublist.cons₂ a ih

theorem mem_removeKey {α : Type} {m : List (String × α)} {k : String}
    {q : String × α} (hq : q ∈ removeKey m k) : q ∈ m :=
  (removeKey_sublist m k).subset hq

theorem sortedKeys_removeKey {α : Type} (m : List (String × α)) (k : String)
    (h : sortedKeys m) : sortedKeys (removeKey m k) :=
  List.Pairwise.sublist (removeKey_sublist m k) h

theorem mem_saveKey {α : Type} {m : List (String × α)} {k : String} {v : α}
    {q : String × α} (hq : q ∈ saveKey m k v) : q = (k, v) ∨ q ∈ m := by
  induction m with
  | nil => simpa [saveKey] using hq
  | cons a l ih =>
    obtain ⟨k', v'⟩ := a
    rw [saveKey] at hq
    rcases lt_trichotomy k k' with h | h | h
    · rw [if_pos h] at hq
      rcases List.mem_cons.mp hq with h1 | h1
      · exact Or.inl h1
      · exact Or.inr h1
    · rw [if_neg (by simp [h]), if_pos h] at hq
      rcases List.mem_cons.mp hq with h1 | h1
      · exact Or.inl h1
      · exact Or.inr (List.mem_cons_of_mem _ h1)
    · rw [if_neg (not_lt.mpr h.le), if_neg (ne_of_gt h)] at hq
      rcases List.mem_cons.mp hq with h1 | h1
      · exact Or.inr (by rw [h1]; exact List.mem_cons_self _ _)
      · rcases ih h1 with h2 | h2
        · exact Or.inl h2
        · exact Or.inr (List.mem_cons_of_mem _ h2)

theorem sortedKeys_saveKey {α : Type} (m : List (String × α)) (k : String)
    (v : α) (h : sortedKeys m) : sortedKeys (saveKey m k v) := by
  induction m with
  | nil => simp [saveKey, sortedKeys]
  | cons a l ih =>
    obtain ⟨k', v'⟩ := a
    obtain ⟨hh, ht⟩ := List.pairwise_cons.mp h
    rw [saveKey]
    rcases lt_trichotomy k k' with hlt | heq | hgt
    · rw [if_pos hlt]
      refine List.Pairwise.cons ?_ (List.Pairwise.cons hh ht)
      intro q hq
      rcases List.mem_cons.mp hq with h1 | h1
      · rw [h1]; exact hlt
      · exact lt_trans hlt (hh q h1)
    · rw [if_neg (by simp [heq]), if_pos heq]
      refine List.Pairwise.cons ?_ ht
      intro q hq
      exact lt_of_eq_of_lt heq (hh q hq)
    · rw [if_neg (not_lt.mpr hgt.le), if_neg (ne_of_gt hgt)]
      refine List.Pairwise.cons ?_ (ih ht)
      intro q hq
      rcases mem_saveKey hq with h1 | h1
      · rw [h1]; exact hgt
      · exact hh q h1

theorem sumW_saveKey (m : WMap) (k : String) (v : Nat) (h : sortedKeys m) :
    sumW (saveKey m k v) + (lookupKey m k).getD 0 = sumW m + v := by
  induction m with
  | nil => simp [saveKey, lookupKey, sumW]
  | cons a l ih =>
    obtain ⟨k', v'⟩ := a
    obtain ⟨hh, ht⟩ := List.pairwise_cons.mp h
    rw [saveKey, lookupKey]
    rcases lt_trichotomy k k' with hlt | heq | hgt
    · rw [if_pos hlt, if_neg (ne_of_gt hlt),
        lookupKey_eq_none_of_forall l k
          fun q hq => ne_of_gt (lt_trans hlt (hh q hq))]
      simp [sumW_cons]
      omega
    · rw [if_neg (by simp [heq]), if_pos heq, if_pos heq.symm]
      simp [sumW_cons]
      omega
    · rw [if_neg (not_lt.mpr hgt.le), if_neg (ne_of_gt hgt),
        if_neg (ne_of_lt hgt)]
      have := ih ht
      simp only [sumW_cons] at *
      omega

theorem sumW_removeKey (m : WMap) (k : String) (h : sortedKeys m) :
    sumW (removeKey m k) + (lookupKey m k).getD 0 = sumW m := by
  induction m with
  | nil => simp [removeKey, lookupKey, sumW]
  | cons a l ih =>
    obtain ⟨k', v'⟩ := a
    obtain ⟨hh, ht⟩ := List.pairwise_cons.mp h
    rw [removeKey, lookupKey]
    by_cases hk : k' = k
    · rw [if_pos hk, if_pos hk,
        removeKey_eq_self l k fun q hq => ne_of_gt (hk ▸ hh q hq)]
      simp [sumW_cons]
      omega
    · rw [if_neg hk, if_neg hk]
      have := ih ht
      simp only [sumW_cons] at *
      omega

theorem key_inj {α : Type} {m : List (String × α)} (hs : sortedKeys m)
    {p q : String × α} (hp : p ∈ m) (hq : q ∈ m) (hk : p.1 = q.1) : p = q := by
  induction m with
  | nil => cases hp
  | cons a l ih =>
    obtain ⟨hh, ht⟩ := List.pairwise_cons.mp hs
    rcases List.mem_cons.mp hp with h1 | h1
    · rcases List.mem_cons.mp hq with h2 | h2
      · rw [h1, h2]
      · exact absurd hk (by rw [h1]; exact ne_of_lt (hh q h2))
    · rcases List.mem_cons.mp hq with h2 | h2
      · exact absurd hk (by rw [h2]; exact ne_of_gt (hh p h1))
      · exact ih ht h1 h2

theorem sumW_removeKey_zeros (m : WMap) (k : String)
    (h : ∀ q ∈ m, q.1 = k → q.2 = 0) : sumW (removeKey m k) = sumW m := by
  induction m with
  | nil => rfl
  | cons a l ih =>
    rw [removeKey]
    by_cases hk : a.1 = k
    · have ha : a.2 = 0 := h a (List.mem_cons_self a l) hk
      rw [if_pos hk, ih fun q hq hqk => h q (List.mem_cons_of_mem a hq) hqk,
        sumW_cons, ha]
      omega
    · rw [if_neg hk, sumW_cons, sumW_cons,
        ih fun q hq hqk => h q (List.mem_cons_of_mem a hq) hqk]

theorem sumW_removeAll_zeros (ks : List String) (m : WMap)
    (h : ∀ q ∈ m, q.1 ∈ ks → q.2 = 0) : sumW (removeAll m ks) = sumW m := by
  induction ks generalizing m with
  | nil => rfl
  | cons k ks ih =>
    have h1 : ∀ q ∈ removeKey m k, q.1 ∈ ks → q.2 = 0 :=
      fun q hq hqk => h q (mem_removeKey hq) (List.mem_cons_of_mem k hqk)
    have h2 : ∀ q ∈ m, q.1 = k → q.2 = 0 :=
      fun q hq hqk => h q hq (by rw [hqk]; exact List.mem_cons_self k ks)
    show sumW (removeAll (removeKey m k) ks) = sumW m
    rw [ih (removeKey m k) h1, sumW_removeKey_zeros m k h2]

theorem sortedKeys_removeAll (ks : List String) (m : WMap)
    (h : sortedKeys m) : sortedKeys (removeAll m ks) := by
  induction ks generalizing m with
  | nil => exact h
  | cons k ks ih => exact ih (removeKey m k) (sortedKeys_removeKey m k h)

theorem subWeights_ok_zero (l : List (String × Nat)) (s : Nat)
    (h : subWeights 0 l = .ok s) : s = 0 ∧ ∀ p ∈ l, p.2 = 0 := by
  induction l with
  | nil =>
    rw [subWeights] at h
    cases h
    exact ⟨rfl, by simp⟩
  | cons a l ih =>
    obtain ⟨ak, aw⟩ := a
    rw [subWeights] at h
    by_cases hw : (0 : Nat) < aw
    · rw [if_pos hw] at h
      exact Except.noConfusion h
    · rw [if_neg hw, Nat.zero_sub] at h
      obtain ⟨h1, h2⟩ := ih h
      refine ⟨h1, ?_⟩
      intro p hp
      rcases List.mem_cons.mp hp with h3 | h3
      · rw [h3]; omega
      · exact h2 p h3

theorem subWeights_err (l : List (String × Nat))
    (h : ∃ p ∈ l, p.2 ≠ 0) : subWeights 0 l = .error .overflow := by
  induction l with
  | nil =>
    obtain ⟨p, hp, _⟩ := h
    cases hp
  | cons a l ih =>
    obtain ⟨ak, aw⟩ := a
    obtain ⟨p, hp, hpz⟩ := h
    rw [subWeights]
    by_cases hw : (0 : Nat) < aw
    · rw [if_pos hw]
    · rw [if_neg hw, Nat.zero_sub]
      apply ih
      rcases List.mem_cons.mp hp with h1 | h1
      · subst h1
        simp at hpz
        omega
      · exact ⟨p, h1, hpz⟩

theorem inv_update_some (m : WMap) (t : Nat) (s : String) (w : Nat)
    (hs : sortedKeys m) (ht : t = sumW m) :
    sortedKeys (saveKey m s w) ∧
      t + w - (lookupKey m s).getD 0 = sumW (saveKey m s w) := by
  refine ⟨sortedKeys_saveKey m s w hs, ?_⟩
  have := sumW_saveKey m s w hs
  omega

theorem inv_update_none (m : WMap) (t : Nat) (s : String)
    (hs : sortedKeys m) (ht : t = sumW m) :
    sortedKeys (removeKey m s) ∧
      t - (lookupKey m s).getD 0 = sumW (removeKey m s) := by
  refine ⟨sortedKeys_removeKey m s hs, ?_⟩
  have := sumW_removeKey m s hs
  omega

theorem update_membership_ok_inv {st st' : State} {s : String} {n h : Nat}
    {msgs : List SubMsg} (hinv : Inv st)
    (hok : update_membership st s n h = .ok (st', msgs)) : Inv st' := by
  rw [update_membership] at hok
  split at hok
  · injection hok with h1
    injection h1 with h2 h3
    exact h2 ▸ hinv
  split at hok
  · exact Except.noConfusion hok
  injection hok with h1
  injection h1 with h2 h3
  subst h2
  cases hcw : calc_weight n st.config with
  | some w =>
    exact ⟨(inv_update_some st.members st.total s w hinv.1 hinv.2).1,
      (inv_update_some st.members st.total s w hinv.1 hinv.2).2⟩
  | none =>
    exact ⟨(inv_update_none st.members st.total s hinv.1 hinv.2).1,
      (inv_update_none st.members st.total s hinv.1 hinv.2).2⟩

theorem migrate_ok_inv {st st' : State} {h n : Nat} {r : MigrateResult}
    (hinv : Inv st) (hok : migrateToDaoDao st h n = .ok (st', r)) : Inv st' := by
  rw [migrateToDaoDao] at hok
  split at hok
  · exact Except.noConfusion hok
  · rename_i sum hsw
    split at hok
    · exact Except.noConfusion hok
    · split at hok
      · exact Except.noConfusion hok
      · split at hok
        · exact Except.noConfusion hok
        · injection hok with h1
          injection h1 with h2 h3
          subst h2
          obtain ⟨hz, hall⟩ := subWeights_ok_zero _ _ hsw
          subst hz
          refine ⟨sortedKeys_removeAll _ _ hinv.1, ?_⟩
          show st.total - 0
            = sumW (removeAll st.members ((st.members.take n).map (·.1)))
          rw [sumW_removeAll_zeros]
          · have := hinv.2
            omega
          · intro q hq hqk
            obtain ⟨p, hp, hpk⟩ := List.mem_map.mp hqk
            have hpm : p ∈ st.members := List.take_subset n st.members hp
            have hqp : q = p := key_inj hinv.1 hq hpm (by rw [hpk])
            rw [hqp]
            exact hall p hp

theorem applyOp_inv (st : State) (op : Op) (h : Inv st) :
    Inv (applyOp st op) := by
  cases op with
  | update s n hh =>
    simp only [applyOp]
    split
    · rename_i st' msgs heq
      exact update_membership_ok_inv h heq
    · exact h
  | migrate hh n =>
    simp only [applyOp]
    split
    · rename_i st' r heq
      exact migrate_ok_inv h heq
    · exact h

/-- C2: the TOTAL counter always equals the sum of all currently recorded
per-address membership weights.  Starting from any state satisfying the
invariant, the invariant holds again after every sequence of updateMembership
and migrateBatch calls (and hence after every prefix of such a sequence, i.e.
at every height): each successful call updates the counter together with the
individual weight change it makes, never by a full rescan, and each aborting
call is reverted wholesale by the execution environment.  TOTAL itself is a
plain (unsnapshotted) counter in the source, so the per-height reading of the
invariant is the one over the currently recorded weights after each call. -/
theorem total_weight_invariant (st : State) (hinv : Inv st) (ops : List Op) :
    Inv (applyOps st ops) := by
  induction ops generalizing st with
  | nil => exact hinv
  | cons op ops ih => exact ih (applyOp st op) (applyOp_inv st op hinv)

/-- C2 witness: the invariant holds concretely after staking for two addresses
and migrating a batch of one, starting from the freshly instantiated state. -/
theorem total_weight_invariant_witness :
    Inv (applyOps baseState
      [Op.update "alice" 250 5, Op.update "bob" 250 6, Op.migrate 7 1]) :=
  total_weight_invariant baseState ⟨List.Pairwise.nil, rfl⟩ _

end Cw4Stake

namespace Cw4Stake

/-- C10: the MigrateToDaoDao batch accumulator starts at zero and performs
checked subtraction of each selected member's weight, so it underflows at the
first nonzero weight and aborts the call; consequently a call can only complete
when every selected member's weight is zero, and then the attached native
transfer amount is zero. -/
theorem migrate_only_zero_weights (st : State) (height num : Nat) :
    (∀ st' r, migrateToDaoDao st height num = .ok (st', r) →
        ((∀ p ∈ st.members.take num, p.2 = 0) ∧ r.fund_amount = 0)) ∧
      ((∃ p ∈ st.members.take num, p.2 ≠ 0) →
        migrateToDaoDao st height num = .error .overflow) := by
  constructor
  · intro st' r hok
    rw [migrateToDaoDao] at hok
    split at hok
    · exact Except.noConfusion hok
    rename_i sum hsw
    split at hok
    · exact Except.noConfusion hok
    split at hok
    · exact Except.noConfusion hok
    split at hok
    · exact Except.noConfusion hok
    obtain ⟨hz, hall⟩ := subWeights_ok_zero _ _ hsw
    injection hok with h1
    injection h1 with h2 h3
    refine ⟨hall, ?_⟩
    rw [← h3]
    exact hz
  · intro hex
    rw [migrateToDaoDao, subWeights_err _ hex]

/-- C10 witness: a batch holding the single member (alice, weight 1) makes the
accumulator underflow and the call abort. -/
theorem migrate_only_zero_weights_witness :
    (∃ p ∈ stMember1.members.take 1, p.2 ≠ 0) ∧
      migrateToDaoDao stMember1 10 1 = .error .overflow :=
  ⟨by decide, (migrate_only_zero_weights stMember1 10 1).2 (by decide)⟩

/-- C1 (evaluation of the code at a failing input): with one member of weight 1,
one stake entry and one pending claim, every MigrateToDaoDao call aborts with
the accumulator underflow, so repeating the call makes no progress and neither
the stake ledger nor the claim store is ever drained; the claimed repeated-call
migration of all entries cannot happen. -/
theorem migrate_never_drains_stores :
    migrateToDaoDao stMember1 10 5 = .error .overflow ∧
      applyOps stMember1 (List.replicate 3 (Op.migrate 10 5)) = stMember1 ∧
      stMember1.stake ≠ [] ∧ stMember1.claims ≠ [] := by
  refine ⟨rfl, rfl, by decide, by decide⟩

/-- C3 (evaluation of the code at a failing input): with one zero-weight member
and a pending 40-token claim, MigrateToDaoDao completes, but the single
outbound message carries only the weights list (the MigrateStakes payload has
no claims component), the attached transfer is 0 rather than including the 40
pending claim tokens, and the claim store is left untouched. -/
theorem migrate_message_lacks_claims :
    migrateToDaoDao stZeroWeight 9 5
      = .ok ({ stZeroWeight with
               members := [], log := [("alice", 9, none)] },
             { recipient := "successor", weights := [("alice", 0)],
               fund_amount := 0, fund_denom := "ukuji", action := "migrate" }) ∧
      stZeroWeight.claims = [("bob", [⟨40, 0⟩])] ∧
      sumAmounts [⟨40, 0⟩] = 40 := by
  refine ⟨rfl, rfl, rfl⟩

/-- C4 (evaluation of the code at a failing input): with TOTAL = 5 and a single
selected member of weight 1, the claimed decrement of TotalWeight by the weight
sum (1 ≤ 5, no underflow) should succeed, yet the call aborts, because the
subtraction the code performs is the zero-initialized accumulator's, not
TOTAL − weightSum. -/
theorem migrate_aborts_despite_sufficient_total :
    sumW (stBigTotal.members.take 1) = 1 ∧
      sumW (stBigTotal.members.take 1) ≤ stBigTotal.total ∧
      migrateToDaoDao stBigTotal 3 1 = .error .overflow := by
  refine ⟨rfl, by decide, rfl⟩

theorem update_membership_ok_lookup {st st' : State} {s : String} {n h : Nat}
    {msgs : List SubMsg}
    (hok : update_membership st s n h = .ok (st', msgs)) :
    st'.config = st.config ∧
      lookupKey st'.members s = calc_weight n st.config := by
  rw [update_membership] at hok
  split at hok
  · rename_i hc
    injection hok with ha
    injection ha with hb hc2
    subst hb
    exact ⟨rfl, hc.symm⟩
  split at hok
  · exact Except.noConfusion hok
  injection hok with ha
  injection ha with hb hc2
  subst hb
  refine ⟨rfl, ?_⟩
  cases hcw : calc_weight n st.config with
  | some w => exact lookupKey_saveKey_self st.members s w
  | none => exact lookupKey_removeKey_self st.members s

/-- C8: updateMembership is idempotent in its input.  If a call for a sender
with some new stake returns successfully, an immediately repeated call for the
same sender and the same new stake is a no-op: it returns the state unchanged
(so no snapshot write and no TOTAL change, the change log included) together
with an empty list of hook notifications. -/
theorem update_membership_idempotent (st : State) (s : String) (n h1 h2 : Nat)
    (st1 : State) (msgs : List SubMsg)
    (hw : 0 < st.config.tokens_per_weight)
    (hok : update_membership st s n h1 = .ok (st1, msgs)) :
    update_membership st1 s n h2 = .ok (st1, []) := by
  obtain ⟨hcfg, hlook⟩ := update_membership_ok_lookup hok
  rw [update_membership, if_pos (by rw [hcfg, hlook])]

/-- C8 witness: staking 250 for alice from the fresh state and then repeating
the same update is a no-op returning no messages. -/
theorem update_membership_idempotent_witness :
    update_membership stAfterStake "alice" 250 6 = .ok (stAfterStake, []) :=
  update_membership_idempotent baseState "alice" 250 5 6 stAfterStake []
    (by decide) rfl

/-- C9: when updateMembership changes a weight, TOTAL is updated by the
difference between the new weight (0 if absent) and the old weight (0 if
absent) using checked u64 arithmetic: on success the new TOTAL plus the old
weight equals the old TOTAL plus the new weight, and whenever that bookkeeping
would overflow u64 or underflow below zero the whole call aborts with no state
change instead of wrapping. -/
theorem update_membership_total_checked (st : State) (s : String) (n h : Nat)
    (hw : 0 < st.config.tokens_per_weight)
    (hne : calc_weight n st.config ≠ lookupKey st.members s) :
    (∀ st' msgs, update_membership st s n h = .ok (st', msgs) →
        st'.total + (lookupKey st.members s).getD 0
          = st.total + (calc_weight n st.config).getD 0) ∧
      ((U64_MOD ≤ st.total + (calc_weight n st.config).getD 0 ∨
          st.total + (calc_weight n st.config).getD 0
            < (lookupKey st.members s).getD 0) →
        update_membership st s n h = .error .overflow) := by
  constructor
  · intro st' msgs hok
    rw [update_membership, if_neg hne] at hok
    split at hok
    · exact Except.noConfusion hok
    rename_i hg
    injection hok with ha
    injection ha with hb hc
    subst hb
    show st.total + (calc_weight n st.config).getD 0
        - (lookupKey st.members s).getD 0 + (lookupKey st.members s).getD 0
      = st.total + (calc_weight n st.config).getD 0
    push_neg at hg
    omega
  · intro hg
    rw [update_membership, if_neg hne, if_pos hg]

/-- C9 witness: unstaking (new stake 0, new weight absent) for a member with
recorded weight 3 while TOTAL is 0 makes the checked bookkeeping underflow and
the call abort. -/
theorem update_membership_total_checked_witness :
    update_membership stLowTotal "anna" 0 7 = .error .overflow :=
  (update_membership_total_checked stLowTotal "anna" 0 7 (by decide)
      (by decide)).2 (by decide)

end Cw4Stake

namespace Cw4Stake

theorem pending_has_no_matured (claims : CMap) (sender : String) (now : Nat) :
    maturedOf (saveKey claims sender (pendingOf claims sender now)) sender now
      = [] := by
  rw [maturedOf, lookupKey_saveKey_self]
  simp [pendingOf, List.filter_filter]

/-- C5: settleClaim fails with NothingToClaim exactly when the matured (released)
amount of the sender is zero, and an error leaves no state change (the call is
reverted wholesale); when some claims have matured the call succeeds, pays out
exactly the sum of the matured claim amounts, stores back exactly the unmatured
claims as still pending, and an immediately repeated call fails with
NothingToClaim. -/
theorem execute_claim_spec (st : State) (sender : String) (now : Nat)
    (cb : Option String) (d : String)
    (hd : st.config.denom = Denom.native d) :
    (execute_claim st sender now cb = .error .nothingToClaim ↔
        sumAmounts (maturedOf st.claims sender now) = 0) ∧
      (sumAmounts (maturedOf st.claims sender now) ≠ 0 →
        execute_claim st sender now cb
          = .ok ({ st with
                   claims := saveKey st.claims sender
                     (pendingOf st.claims sender now) },
                 { recipient := sender,
                   amount := sumAmounts (maturedOf st.claims sender now),
                   denom := d, callback := cb }) ∧
          execute_claim
            { st with
              claims := saveKey st.claims sender
                (pendingOf st.claims sender now) } sender now cb
            = .error .nothingToClaim) := by
  constructor
  · constructor
    · intro herr
      rw [execute_claim] at herr
      split at herr
      · rename_i hzero
        exact hzero
      split at herr
      · injection herr with hx
        exact ContractError.noConfusion hx
      · exact Except.noConfusion herr
    · intro h0
      have h0' : (claim_tokens st.claims sender now).1 = 0 := h0
      rw [execute_claim, if_pos h0']
  · intro hne
    have hne' : ¬ (claim_tokens st.claims sender now).1 = 0 := hne
    constructor
    · rw [execute_claim, if_neg hne', hd]
      rfl
    · have hz : (claim_tokens
          (saveKey st.claims sender (pendingOf st.claims sender now))
          sender now).1 = 0 := by
        show sumAmounts (maturedOf
          (saveKey st.claims sender (pendingOf st.claims sender now))
          sender now) = 0
        rw [pending_has_no_matured]
        rfl
      rw [execute_claim, if_pos hz]

/-- C5 witness: the spec's concrete scenario for address C with claims
(50, matured at 10) and (30, maturing at 1000), settled at time 100: exactly 50
is paid out, the 30 claim stays pending, and the repeated call fails with
NothingToClaim. -/
theorem execute_claim_spec_witness :
    execute_claim stTwoClaims "C" 100 none
      = .ok ({ stTwoClaims with
               claims := saveKey stTwoClaims.claims "C"
                 (pendingOf stTwoClaims.claims "C" 100) },
             { recipient := "C",
               amount := sumAmounts (maturedOf stTwoClaims.claims "C" 100),
               denom := "ukuji", callback := none }) ∧
      execute_claim
        { stTwoClaims with
          claims := saveKey stTwoClaims.claims "C"
            (pendingOf stTwoClaims.claims "C" 100) } "C" 100 none
        = .error .nothingToClaim :=
  (execute_claim_spec stTwoClaims "C" 100 none "ukuji" rfl).2 (by decide)

end Cw4Stake
